import Mathlib

/-!
Verification of the face-snap-trieve core: a shallow embedding of the
name-keyed embedding registry (`FaceHashMap`), the nearest-neighbor face
matcher (`FaceRecognitionEngine.recognizeFace`), the autocomplete trie
(`Trie`), the registration quality gate, and the orchestration layer's
rolling result window, together with theorems settling the spec claims.

JavaScript `Map` objects are modelled as association lists in insertion
order (update-in-place on an existing key, append on a new key), numbers
as real numbers, and mutation as explicit state passing.
-/

set_option maxHeartbeats 1000000

namespace FaceSnap

/-! ### Association lists: the model of the JavaScript `Map` -/

variable {κ : Type} {α : Type} [DecidableEq κ]

/-- Model of `Map.prototype.get`: value at the first matching key. -/
def aget : List (κ × α) → κ → Option α
  | [], _ => none
  | p :: rest, k => if p.1 = k then some p.2 else aget rest k

/-- Model of `Map.prototype.set`: update in place on an existing key,
append at the end on a fresh key (JavaScript insertion-order semantics). -/
def aset : List (κ × α) → κ → α → List (κ × α)
  | [], k, v => [(k, v)]
  | p :: rest, k, v => if p.1 = k then (p.1, v) :: rest else p :: aset rest k v

/-- Model of `Map.prototype.has`. -/
def ahas : List (κ × α) → κ → Bool
  | [], _ => false
  | p :: rest, k => if p.1 = k then true else ahas rest k

/-- Model of `Map.prototype.delete`'s effect on the store: the entry at
the first matching key is removed. -/
def aerase : List (κ × α) → κ → List (κ × α)
  | [], _ => []
  | p :: rest, k => if p.1 = k then rest else p :: aerase rest k

/-- Model of the `Map` key-uniqueness invariant. -/
def anodup : List (κ × α) → Bool
  | [] => true
  | p :: rest => !(ahas rest p.1) && anodup rest

/-- Model of JavaScript `String.prototype.toLowerCase` (ASCII case
folding), used to normalize names for keying. -/
def strLower (s : String) : String := ⟨s.data.map Char.toLower⟩

/-- Model of JavaScript `String.prototype.trim`: strip leading and
trailing whitespace. -/
def strTrim (s : String) : String :=
  ⟨((s.data.dropWhile Char.isWhitespace).reverse.dropWhile
      Char.isWhitespace).reverse⟩

/-! ### FaceHashMap: the embedding registry -/

/-- The registry of face embeddings, keyed by lower-cased name.
Models the `FaceHashMap` class: a JavaScript `Map<string, number[]>`
iterated in insertion order, as an association list; reachable states
keep their keys unique (`anodup`), which theorems assume explicitly. -/
structure FaceHashMap where
  map : List (String × List ℝ)

/-- The empty registry produced by the `FaceHashMap` constructor. -/
def FaceHashMap.empty : FaceHashMap := ⟨[]⟩

/-- `set(name, embedding)`: stores under the lower-cased name. -/
def FaceHashMap.set (h : FaceHashMap) (name : String) (embedding : List ℝ) :
    FaceHashMap :=
  ⟨aset h.map (strLower name) embedding⟩

/-- `get(name)`: looks up the lower-cased name. -/
def FaceHashMap.get (h : FaceHashMap) (name : String) : Option (List ℝ) :=
  aget h.map (strLower name)

/-- `has(name)`. -/
def FaceHashMap.has (h : FaceHashMap) (name : String) : Bool :=
  ahas h.map (strLower name)

/-- `delete(name)`: returns whether an entry was removed, plus the new
state (the source mutates in place and returns the Boolean). -/
def FaceHashMap.delete (h : FaceHashMap) (name : String) :
    Bool × FaceHashMap :=
  (ahas h.map (strLower name), ⟨aerase h.map (strLower name)⟩)

/-- `entries()`: snapshot of the entries in insertion order. -/
def FaceHashMap.entries (h : FaceHashMap) : List (String × List ℝ) := h.map

/-- `names()`. -/
def FaceHashMap.names (h : FaceHashMap) : List String := h.map.map Prod.fst

/-- `clear()`. -/
def FaceHashMap.clear (_ : FaceHashMap) : FaceHashMap := ⟨[]⟩

/-- `size()`. -/
def FaceHashMap.size (h : FaceHashMap) : Nat := h.map.length

/-! ### FaceRecognitionEngine: the nearest-neighbor matcher

JavaScript numbers are modelled as real numbers.  `euclideanDistance`
loops over the indices of the first embedding and sums squared
per-dimension differences; for the equal-length embeddings the engine
works with, this is the sum over the zipped pairs. -/

/-- The sum of squared per-dimension differences computed by the loop in
`FaceRecognitionEngine.euclideanDistance`. -/
def sumSqDiff (e1 e2 : List ℝ) : ℝ :=
  ((e1.zip e2).map (fun p => (p.1 - p.2) ^ 2)).sum

/-- `FaceRecognitionEngine.euclideanDistance`: square root of the summed
squared differences. -/
noncomputable def euclideanDistance (e1 e2 : List ℝ) : ℝ :=
  Real.sqrt (sumSqDiff e1 e2)

/-- One step of the scan in `recognizeFace`: keep the current best unless
the new entry's distance is strictly smaller (`distance < bestMatch.distance`),
or there is no current best. -/
noncomputable def bestStep (embedding : List ℝ) (best : Option (String × ℝ))
    (p : String × List ℝ) : Option (String × ℝ) :=
  let distance := euclideanDistance embedding p.2
  match best with
  | none => some (p.1, distance)
  | some b => if distance < b.2 then some (p.1, distance) else some b

/-- `FaceRecognitionEngine.recognizeFace`: linear scan over
`hashMap.entries()` tracking the minimum-distance candidate; if the best
distance is strictly below the threshold (default `0.6` in the source),
return the name together with `clamp(1 - distance, 0, 1)`, else `null`. -/
noncomputable def recognizeFace (h : FaceHashMap) (embedding : List ℝ)
    (threshold : ℝ) : Option (String × ℝ) :=
  match h.entries.foldl (bestStep embedding) none with
  | none => none
  | some b =>
      if b.2 < threshold then some (b.1, max 0 (min 1 (1 - b.2))) else none

/-- `recognizeFace` at the source's default threshold of `0.6`. -/
noncomputable def recognizeFaceDefault (h : FaceHashMap)
    (embedding : List ℝ) : Option (String × ℝ) :=
  recognizeFace h embedding 0.6

/-- The scan result is the minimum-distance candidate, and among
equal-distance candidates the first-seen one: every entry strictly before
the winning entry has strictly larger distance, and every entry has
distance at least the winning one. -/
def MinFirst (q : List ℝ) (l : List (String × List ℝ)) (b : String × ℝ) :
    Prop :=
  ∃ l1 p l2, l = l1 ++ p :: l2 ∧ b.1 = p.1 ∧
    b.2 = euclideanDistance q p.2 ∧
    (∀ p' ∈ l1, b.2 < euclideanDistance q p'.2) ∧
    (∀ p' ∈ l, b.2 ≤ euclideanDistance q p'.2)

/-! ### Trie: the autocomplete structure

`TrieNode` has a children map (a JavaScript `Map<string, TrieNode>`
iterated in insertion order, modelled as an association list), an
end-of-word flag, and the stored original-casing name (`string | null`).
The JavaScript truthiness test `node.isEndOfWord && node.name` in
`collectNames` treats the empty string as falsy; `nameList` models it. -/

inductive TrieNode : Type where
  | mk (children : List (Char × TrieNode)) (isEndOfWord : Bool)
      (name : Option String)

def TrieNode.children : TrieNode → List (Char × TrieNode)
  | .mk ch _ _ => ch

def TrieNode.isEndOfWord : TrieNode → Bool
  | .mk _ e _ => e

def TrieNode.name : TrieNode → Option String
  | .mk _ _ nm => nm

/-- A fresh `new TrieNode()`. -/
def TrieNode.empty : TrieNode := .mk [] false none

/-- The walk of `Trie.insert` over the lower-cased characters: extend the
path (a missing child is created, i.e. starts from `TrieNode.empty`), and
at the end set the terminal flag and store the original-casing name. -/
def insertGo : List Char → String → TrieNode → TrieNode
  | [], nm, .mk ch _ _ => .mk ch true (some nm)
  | c :: cs, nm, .mk ch e n0 =>
      .mk (aset ch c (insertGo cs nm ((aget ch c).getD TrieNode.empty))) e n0

structure Trie where
  root : TrieNode

def Trie.empty : Trie := ⟨TrieNode.empty⟩

/-- `Trie.insert(name)`: walks `name.toLowerCase()` and marks the end
node terminal with the original name stored. -/
def Trie.insert (t : Trie) (name : String) : Trie :=
  ⟨insertGo (strLower name).data name t.root⟩

/-- Walking a character path from a node (the navigation loop shared by
`searchWithPrefix` and `exists`). -/
def findNode : TrieNode → List Char → Option TrieNode
  | n, [] => some n
  | .mk ch _ _, c :: cs =>
      match aget ch c with
      | none => none
      | some child => findNode child cs

/-- The character walk of `Trie.exists`: `false` on a missing child,
otherwise the final node's `isEndOfWord`. -/
def existsGo : TrieNode → List Char → Bool
  | .mk _ e _, [] => e
  | .mk ch _ _, c :: cs =>
      match aget ch c with
      | none => false
      | some child => existsGo child cs

/-- `Trie.exists(name)`. -/
def Trie.existsName (t : Trie) (name : String) : Bool :=
  existsGo t.root (strLower name).data

/-- The JavaScript truthiness test `node.isEndOfWord && node.name`
pushes the stored name; `null` and the empty string are falsy. -/
def nameList : Option String → List String
  | none => []
  | some s => if s = "" then [] else [s]

mutual

/-- `Trie.collectNames`: push this node's name if terminal and truthy,
then DFS over the children in insertion order. -/
def collectNames : TrieNode → List String
  | .mk ch e nm => (if e then nameList nm else []) ++ collectChildren ch

def collectChildren : List (Char × TrieNode) → List String
  | [] => []
  | p :: rest => collectNames p.2 ++ collectChildren rest

end

/-- `Trie.searchWithPrefix(prefix)`: navigate to the prefix node
(returning `[]` when the path is missing) and collect every stored name
below it. -/
def Trie.searchWithPrefix (t : Trie) (pre : String) : List String :=
  match findNode t.root (strLower pre).data with
  | none => []
  | some n => collectNames n

/-- `Trie.removeHelper`: at the end of the path, unmark the terminal flag
and clear the name, reporting whether this node may be pruned; on the way
back up, prune a child that reported prunable and report whether this
node is now useless (`children.size === 0 && !isEndOfWord`). -/
def removeHelper : TrieNode → List Char → TrieNode × Bool
  | .mk ch e nm, [] =>
      if e then (.mk ch false none, ch.isEmpty) else (.mk ch e nm, false)
  | .mk ch e nm, c :: cs =>
      match aget ch c with
      | none => (.mk ch e nm, false)
      | some child =>
          let r := removeHelper child cs
          if r.2 then (.mk (aerase ch c) e nm, (aerase ch c).isEmpty && !e)
          else (.mk (aset ch c r.1) e nm, false)

/-- `Trie.remove(name)`: runs the helper from the root on the lower-cased
name and returns the new state together with the helper's Boolean (which
the source returns to the caller). -/
def Trie.remove (t : Trie) (name : String) : Trie × Bool :=
  let r := removeHelper t.root (strLower name).data
  (⟨r.1⟩, r.2)

/-- The name `collectNames` would push at a single node. -/
def storedOf : TrieNode → Option String
  | .mk _ e nm => if e then (nameList nm).head? else none

/-- The name stored at the end of a character path, if any. -/
def storedAt (n : TrieNode) (w : List Char) : Option String :=
  (findNode n w).bind storedOf

mutual

/-- Well-formedness of a node: children keys are distinct at every
reachable node (the `Map` invariant). -/
def wfNode : TrieNode → Bool
  | .mk ch _ _ => anodup ch && wfChildren ch

def wfChildren : List (Char × TrieNode) → Bool
  | [] => true
  | p :: rest => wfNode p.2 && wfChildren rest

end

mutual

/-- Whether the subtree rooted here contains a terminal node. -/
def subtreeTerm : TrieNode → Bool
  | .mk ch e _ => e || anyTerm ch

def anyTerm : List (Char × TrieNode) → Bool
  | [] => false
  | p :: rest => subtreeTerm p.2 || anyTerm rest

end

mutual

/-- Compaction: every reachable non-root node's subtree contains a
terminal node (no dangling non-terminal leaves). -/
def prunedB : TrieNode → Bool
  | .mk ch _ _ => prunedChildren ch

def prunedChildren : List (Char × TrieNode) → Bool
  | [] => true
  | p :: rest => (subtreeTerm p.2 && prunedB p.2) && prunedChildren rest

end

/-- Building a trie by inserting a list of names in order into the empty
trie, as the orchestration layer does on load. -/
def buildTrie (names : List String) : Trie :=
  names.foldl Trie.insert Trie.empty

/-- Structural strong induction over the nested `TrieNode` tree. -/
def TrieNode.recMem {P : TrieNode → Prop}
    (h : ∀ ch e nm, (∀ p ∈ ch, P p.2) → P (.mk ch e nm)) :
    ∀ n, P n
  | .mk ch e nm => h ch e nm (fun p hp => TrieNode.recMem h p.2)
decreasing_by
  have h1 : sizeOf p < sizeOf ch := List.sizeOf_lt_of_mem hp
  have h2 : sizeOf p.2 < sizeOf p := by
    cases p with
    | mk a b => simp
  simp
  omega

/-! ### The registration quality gate

The label and score record produced by `assessFaceQuality` (treated by
the spec as an external heuristic delivering a 0-100 score) and the
guard at the top of the register dialog's `handleStartCapture`, which
refuses to start capturing samples unless a detection is present and its
overall score is at least 60. -/

inductive DistanceLabel : Type where
  | tooClose | optimal | tooFar | unknown
deriving DecidableEq

inductive LightingLabel : Type where
  | dark | optimal | bright | unknown
deriving DecidableEq

inductive AngleLabel : Type where
  | good | tilted | unknown
deriving DecidableEq

structure FaceQualityMetrics where
  distance : DistanceLabel
  lighting : LightingLabel
  angle : AngleLabel
  overallScore : ℤ
deriving DecidableEq

/-- The guard of `handleStartCapture`: an empty (trimmed) name aborts,
a missing quality assessment aborts, `overallScore < 60` aborts;
otherwise sample capture proceeds. -/
def captureProceeds (name : String)
    (qualityMetrics : Option FaceQualityMetrics) : Bool :=
  if strTrim name = "" then false
  else
    match qualityMetrics with
    | none => false
    | some m => decide (60 ≤ m.overallScore)

/-! ### The orchestration layer's rolling result window -/

/-- A recognition result as kept by the orchestration layer. -/
structure RecognitionResult where
  name : String
  confidence : ℝ
  timestamp : Nat

/-- One frame-processing step's effect on the result list: when the new
frame produced no results the list is unchanged, otherwise the new
results are prepended and the list truncated to the 10 newest. -/
def updateResults (newResults prev : List RecognitionResult) :
    List RecognitionResult :=
  if newResults.isEmpty then prev else (newResults ++ prev).take 10

theorem aget_aset_self (l : List (κ × α)) (k : κ) (v : α) :
    aget (aset l k v) k = some v := by
  induction l with
  | nil => simp [aset, aget]
  | cons p rest ih =>
      by_cases h : p.1 = k
      · simp [aset, aget, h]
      · simp [aset, aget, h, ih]

theorem aget_aset_ne (l : List (κ × α)) (k k' : κ) (v : α) (h : k ≠ k') :
    aget (aset l k v) k' = aget l k' := by
  induction l with
  | nil => simp [aset, aget, h]
  | cons p rest ih =>
      by_cases hp : p.1 = k
      · simp [aset, aget, hp, h, ih]
      · simp [aset, aget, hp, h, ih]

theorem aset_ne_nil (l : List (κ × α)) (k : κ) (v : α) : aset l k v ≠ [] := by
  cases l with
  | nil => simp [aset]
  | cons p rest =>
      by_cases h : p.1 = k <;> simp [aset, h]

theorem mem_aset (l : List (κ × α)) (k : κ) (v : α) (p : κ × α)
    (h : p ∈ aset l k v) : p = (k, v) ∨ p ∈ l := by
  induction l with
  | nil => simp [aset] at h; simp [h]
  | cons q rest ih =>
      by_cases hq : q.1 = k
      · rw [aset, if_pos hq] at h
        rcases List.mem_cons.mp h with h | h
        · left; rw [h, hq]
        · right; exact List.mem_cons_of_mem q h
      · rw [aset, if_neg hq] at h
        rcases List.mem_cons.mp h with h | h
        · right; exact h ▸ List.mem_cons_self q rest
        · rcases ih h with h' | h'
          · left; exact h'
          · right; exact List.mem_cons_of_mem q h'

theorem aset_mem_self (l : List (κ × α)) (k : κ) (v : α) :
    (k, v) ∈ aset l k v := by
  induction l with
  | nil => simp [aset]
  | cons q rest ih =>
      by_cases hq : q.1 = k
      · rw [aset, if_pos hq]
        exact (show (k, v) = (q.1, v) by rw [hq]) ▸ List.mem_cons_self _ rest
      · rw [aset, if_neg hq]
        exact List.mem_cons_of_mem q ih

theorem aget_mem (l : List (κ × α)) (k : κ) (v : α) (h : aget l k = some v) :
    (k, v) ∈ l := by
  induction l with
  | nil => simp [aget] at h
  | cons q rest ih =>
      by_cases hq : q.1 = k
      · rw [aget, if_pos hq] at h
        have : (k, v) = q := by
          cases q with
          | mk q1 q2 =>
              simp only at hq
              cases h
              rw [hq]
        exact this ▸ List.mem_cons_self q rest
      · rw [aget, if_neg hq] at h
        exact List.mem_cons_of_mem q (ih h)

theorem aerase_sublist (l : List (κ × α)) (k : κ) :
    List.Sublist (aerase l k) l := by
  induction l with
  | nil => simp [aerase]
  | cons q rest ih =>
      by_cases hq : q.1 = k
      · rw [aerase, if_pos hq]
        exact List.sublist_cons_self q rest
      · rw [aerase, if_neg hq]
        exact ih.cons₂ q

theorem ahas_eq_isSome_aget (l : List (κ × α)) (k : κ) :
    ahas l k = (aget l k).isSome := by
  induction l with
  | nil => simp [ahas, aget]
  | cons q rest ih =>
      by_cases hq : q.1 = k
      · rw [ahas, if_pos hq, aget, if_pos hq]
        rfl
      · rw [ahas, if_neg hq, aget, if_neg hq]
        exact ih

theorem aget_eq_none_of_not_has (l : List (κ × α)) (k : κ)
    (h : ahas l k = false) : aget l k = none := by
  have hh := ahas_eq_isSome_aget l k
  rw [h] at hh
  cases hg : aget l k with
  | none => rfl
  | some v => rw [hg] at hh; simp at hh

theorem ahas_aerase_of_anodup (l : List (κ × α)) (k : κ)
    (h : anodup l = true) : ahas (aerase l k) k = false := by
  induction l with
  | nil => simp [aerase, ahas]
  | cons q rest ih =>
      simp only [anodup, Bool.and_eq_true, Bool.not_eq_true'] at h
      by_cases hq : q.1 = k
      · rw [aerase, if_pos hq, ← hq]
        exact h.1
      · rw [aerase, if_neg hq, ahas, if_neg hq]
        exact ih h.2

theorem ahas_aset (l : List (κ × α)) (k k' : κ) (v : α) :
    ahas (aset l k v) k' = (ahas l k' || decide (k = k')) := by
  induction l with
  | nil =>
      by_cases h : k = k' <;> simp [aset, ahas, h]
  | cons q rest ih =>
      by_cases hq : q.1 = k
      · by_cases hq' : q.1 = k'
        · rw [aset, if_pos hq, ahas, if_pos hq', ahas, if_pos hq']
          rfl
        · have hkk : ¬ k = k' := fun he => hq' (hq.trans he)
          rw [aset, if_pos hq, ahas, if_neg hq', ahas, if_neg hq']
          simp [hkk]
      · by_cases hq' : q.1 = k'
        · rw [aset, if_neg hq, ahas, if_pos hq', ahas, if_pos hq']
          rfl
        · rw [aset, if_neg hq, ahas, if_neg hq', ahas, if_neg hq']
          exact ih

theorem ahas_aerase (l : List (κ × α)) (k k' : κ) :
    ahas (aerase l k) k' = true → ahas l k' = true := by
  induction l with
  | nil => simp [aerase]
  | cons q rest ih =>
      by_cases hq : q.1 = k
      · rw [aerase, if_pos hq]
        intro h
        by_cases hq' : q.1 = k'
        · rw [ahas, if_pos hq']
        · rw [ahas, if_neg hq']
          exact h
      · rw [aerase, if_neg hq]
        by_cases hq' : q.1 = k'
        · rw [ahas, if_pos hq', ahas, if_pos hq']
          exact fun h => h
        · rw [ahas, if_neg hq', ahas, if_neg hq']
          exact ih

theorem anodup_aset (l : List (κ × α)) (k : κ) (v : α)
    (h : anodup l = true) : anodup (aset l k v) = true := by
  induction l with
  | nil => simp [aset, anodup, ahas]
  | cons q rest ih =>
      simp only [anodup, Bool.and_eq_true, Bool.not_eq_true'] at h
      by_cases hq : q.1 = k
      · rw [aset, if_pos hq]
        simp only [anodup, Bool.and_eq_true, Bool.not_eq_true']
        exact ⟨h.1, h.2⟩
      · rw [aset, if_neg hq]
        simp only [anodup, Bool.and_eq_true, Bool.not_eq_true']
        refine ⟨?_, ih h.2⟩
        rw [ahas_aset]
        simp only [h.1, Bool.false_or, decide_eq_false_iff_not]
        exact fun he => hq he.symm

theorem anodup_aerase (l : List (κ × α)) (k : κ)
    (h : anodup l = true) : anodup (aerase l k) = true := by
  induction l with
  | nil => simp [aerase, anodup]
  | cons q rest ih =>
      simp only [anodup, Bool.and_eq_true, Bool.not_eq_true'] at h
      by_cases hq : q.1 = k
      · rw [aerase, if_pos hq]
        exact h.2
      · rw [aerase, if_neg hq]
        simp only [anodup, Bool.and_eq_true, Bool.not_eq_true']
        refine ⟨?_, ih h.2⟩
        cases hh : ahas (aerase rest k) q.1 with
        | false => rfl
        | true =>
            rw [ahas_aerase rest k q.1 hh] at h
            exact absurd h.1 (by simp)

theorem ahas_of_mem (l : List (κ × α)) (p : κ × α) (hm : p ∈ l) :
    ahas l p.1 = true := by
  induction l with
  | nil => simp at hm
  | cons q rest ih =>
      rcases List.mem_cons.mp hm with h | h
      · rw [ahas, if_pos (by rw [h])]
      · by_cases hq : q.1 = p.1
        · rw [ahas, if_pos hq]
        · rw [ahas, if_neg hq]
          exact ih h

theorem aget_of_mem_anodup (l : List (κ × α)) (k : κ) (v : α)
    (hn : anodup l = true) (hm : (k, v) ∈ l) : aget l k = some v := by
  induction l with
  | nil => simp at hm
  | cons q rest ih =>
      simp only [anodup, Bool.and_eq_true, Bool.not_eq_true'] at hn
      rcases List.mem_cons.mp hm with h | h
      · rw [← h, aget, if_pos rfl]
      · have hne : q.1 ≠ k := by
          intro he
          have := ahas_of_mem rest (k, v) h
          rw [← he] at this
          rw [this] at hn
          exact absurd hn.1 (by simp)
        rw [aget, if_neg hne]
        exact ih hn.2 h

theorem foldl_bestStep_some (q : List ℝ) (l : List (String × List ℝ)) :
    ∀ acc, l.foldl (bestStep q) (some acc) ≠ none := by
  induction l with
  | nil => intro acc h; simp at h
  | cons p rest ih =>
      intro acc
      rw [List.foldl_cons]
      rcases hb : bestStep q (some acc) p with _ | b'
      · exfalso
        rw [show bestStep q (some acc) p =
            if euclideanDistance q p.2 < acc.2
            then some (p.1, euclideanDistance q p.2) else some acc
          from rfl] at hb
        split at hb <;> simp at hb
      · exact ih b'

theorem foldl_bestStep_none_iff (q : List ℝ) (l : List (String × List ℝ)) :
    l.foldl (bestStep q) none = none ↔ l = [] := by
  constructor
  · intro h
    cases l with
    | nil => rfl
    | cons p rest =>
        rw [List.foldl_cons] at h
        rw [show bestStep q none p = some (p.1, euclideanDistance q p.2)
          from rfl] at h
        exact absurd h (foldl_bestStep_some q rest _)
  · intro h; rw [h]; rfl

theorem foldl_bestStep_minFirst (q : List ℝ) (l : List (String × List ℝ)) :
    ∀ b, l.foldl (bestStep q) none = some b → MinFirst q l b := by
  induction l using List.reverseRecOn with
  | nil => intro b h; simp at h
  | append_singleton l p ih =>
      intro b h
      rw [List.foldl_append, List.foldl_cons, List.foldl_nil] at h
      rcases hl : l.foldl (bestStep q) none with _ | b0
      · have hnil : l = [] := (foldl_bestStep_none_iff q l).mp hl
        rw [hl] at h
        rw [show bestStep q none p = some (p.1, euclideanDistance q p.2)
          from rfl] at h
        cases h
        refine ⟨[], p, [], by simp [hnil], rfl, rfl, by simp, ?_⟩
        intro p' hp'
        rw [hnil] at hp'
        simp at hp'
        rw [hp']
      · rw [hl] at h
        have hmf := ih b0 hl
        rcases hmf with ⟨l1, p0, l2, hdec, hname, hdist, hlt, hle⟩
        rw [show bestStep q (some b0) p =
            if euclideanDistance q p.2 < b0.2
            then some (p.1, euclideanDistance q p.2) else some b0
          from rfl] at h
        split at h
        · -- new entry strictly better: it becomes the unique best so far
          rename_i hcmp
          cases h
          refine ⟨l, p, [], by simp, rfl, rfl, ?_, ?_⟩
          · intro p' hp'
            exact lt_of_lt_of_le hcmp (hle p' hp')
          · intro p' hp'
            rcases List.mem_append.mp hp' with hp' | hp'
            · exact le_of_lt (lt_of_lt_of_le hcmp (hle p' hp'))
            · simp at hp'
              rw [hp']
        · -- old best retained (ties keep the first-seen candidate)
          rename_i hcmp
          push_neg at hcmp
          cases h
          refine ⟨l1, p0, l2 ++ [p], by rw [hdec]; simp, hname, hdist, hlt, ?_⟩
          intro p' hp'
          rcases List.mem_append.mp hp' with hp' | hp'
          · exact hle p' hp'
          · simp at hp'
            rw [hp']
            exact hcmp

theorem minFirst_mem (q : List ℝ) (l : List (String × List ℝ))
    (b : String × ℝ) (h : MinFirst q l b) :
    ∃ p ∈ l, b.1 = p.1 ∧ b.2 = euclideanDistance q p.2 := by
  rcases h with ⟨l1, p, l2, hdec, hname, hdist, _, _⟩
  exact ⟨p, by rw [hdec]; simp, hname, hdist⟩

/-! ### List-level helper lemmas for the mutual trie predicates -/

theorem list_isEmpty_iff {β : Type} (l : List β) :
    l.isEmpty = true ↔ l = [] := by
  cases l <;> simp

theorem wfChildren_iff (ch : List (Char × TrieNode)) :
    wfChildren ch = true ↔ ∀ p ∈ ch, wfNode p.2 = true := by
  induction ch with
  | nil => simp [wfChildren]
  | cons p rest ih =>
      simp only [wfChildren, Bool.and_eq_true, ih, List.mem_cons]
      constructor
      · rintro ⟨h1, h2⟩ q (hq | hq)
        · rw [hq]; exact h1
        · exact h2 q hq
      · intro h
        exact ⟨h p (Or.inl rfl), fun q hq => h q (Or.inr hq)⟩

theorem anyTerm_iff (ch : List (Char × TrieNode)) :
    anyTerm ch = true ↔ ∃ p ∈ ch, subtreeTerm p.2 = true := by
  induction ch with
  | nil => simp [anyTerm]
  | cons p rest ih =>
      simp only [anyTerm, Bool.or_eq_true, ih, List.mem_cons]
      constructor
      · rintro (h | ⟨q, hq, hs⟩)
        · exact ⟨p, Or.inl rfl, h⟩
        · exact ⟨q, Or.inr hq, hs⟩
      · rintro ⟨q, (hq | hq), hs⟩
        · left; rw [hq] at hs; exact hs
        · right; exact ⟨q, hq, hs⟩

theorem prunedChildren_iff (ch : List (Char × TrieNode)) :
    prunedChildren ch = true ↔
      ∀ p ∈ ch, subtreeTerm p.2 = true ∧ prunedB p.2 = true := by
  induction ch with
  | nil => simp [prunedChildren]
  | cons p rest ih =>
      simp only [prunedChildren, Bool.and_eq_true, ih, List.mem_cons]
      constructor
      · rintro ⟨⟨h1, h2⟩, h3⟩ q (hq | hq)
        · rw [hq]; exact ⟨h1, h2⟩
        · exact h3 q hq
      · intro h
        exact ⟨h p (Or.inl rfl), fun q hq => h q (Or.inr hq)⟩

theorem collectChildren_eq (ch : List (Char × TrieNode)) :
    collectChildren ch = (ch.map (fun p => collectNames p.2)).flatten := by
  induction ch with
  | nil => simp [collectChildren]
  | cons p rest ih => simp [collectChildren, ih]

/-! ### The return value of `remove` (claim C2)

`Trie.remove` returns what `removeHelper` reports for the *root*: the
call returns `true` exactly when the name was present and terminal AND
the pruning emptied the entire trie (root left without children and not
terminal).  In particular a successful removal whose end node keeps
children, or whose path is shared with other names, returns `false`. -/

theorem removeHelper_snd_iff : ∀ (w : List Char) (n : TrieNode),
    (removeHelper n w).2 = true ↔
      (existsGo n w = true ∧ (removeHelper n w).1.children = [] ∧
       (removeHelper n w).1.isEndOfWord = false) := by
  intro w
  induction w with
  | nil =>
      rintro ⟨ch, e, nm⟩
      cases e with
      | true =>
          simp only [removeHelper, if_pos rfl, existsGo, TrieNode.children,
            TrieNode.isEndOfWord]
          simp [list_isEmpty_iff]
      | false =>
          simp [removeHelper, existsGo]
  | cons c cs ih =>
      rintro ⟨ch, e, nm⟩
      cases hg : aget ch c with
      | none =>
          simp [removeHelper, hg, existsGo]
      | some child =>
          cases hr : (removeHelper child cs).2 with
          | true =>
              have hterm : existsGo child cs = true :=
                ((ih child).mp hr).1
              simp only [removeHelper, hg, hr, eq_self_iff_true, if_true,
                existsGo, TrieNode.children, TrieNode.isEndOfWord]
              rw [Bool.and_eq_true, list_isEmpty_iff]
              simp [hterm]
          | false =>
              simp only [removeHelper, hg, hr, Bool.false_eq_true,
                if_false, existsGo, TrieNode.children, TrieNode.isEndOfWord]
              constructor
              · intro h; exact absurd h (by simp)
              · rintro ⟨-, h2, -⟩
                exact absurd h2 (aset_ne_nil ch c (removeHelper child cs).1)

/-! ### Compaction is preserved by `remove` (claim C3) -/

theorem removeHelper_preserves_pruned : ∀ (w : List Char) (n : TrieNode),
    prunedB n = true →
    prunedB (removeHelper n w).1 = true ∧
      ((removeHelper n w).2 = false → subtreeTerm n = true →
        subtreeTerm (removeHelper n w).1 = true) := by
  intro w
  induction w with
  | nil =>
      rintro ⟨ch, e, nm⟩ hp
      cases e with
      | true =>
          simp only [removeHelper, eq_self_iff_true, if_true]
          refine ⟨by simpa [prunedB] using hp, ?_⟩
          intro hsnd _
          have hne : ch ≠ [] := by
            intro h0
            rw [h0] at hsnd
            simp at hsnd
          rcases List.exists_mem_of_ne_nil ch hne with ⟨p, hmem⟩
          have hpt := (prunedChildren_iff ch).mp
            (by simpa [prunedB] using hp) p hmem
          simp only [subtreeTerm, Bool.or_eq_true]
          right
          rw [anyTerm_iff]
          exact ⟨p, hmem, hpt.1⟩
      | false =>
          simp only [removeHelper]
          exact ⟨by simpa [prunedB] using hp, fun _ h => h⟩
  | cons c cs ih =>
      rintro ⟨ch, e, nm⟩ hp
      have hp' : prunedChildren ch = true := by simpa [prunedB] using hp
      cases hg : aget ch c with
      | none =>
          simp only [removeHelper, hg]
          exact ⟨by simpa [prunedB] using hp', fun _ h => h⟩
      | some child =>
          have hchild := (prunedChildren_iff ch).mp hp' (c, child)
            (aget_mem ch c child hg)
          cases hr : (removeHelper child cs).2 with
          | true =>
              simp only [removeHelper, hg, hr, eq_self_iff_true, if_true]
              constructor
              · simp only [prunedB, prunedChildren_iff]
                intro p hp2
                exact (prunedChildren_iff ch).mp hp'
                  p ((aerase_sublist ch c).subset hp2)
              · intro hsnd _
                simp only [subtreeTerm, Bool.or_eq_true]
                by_cases he : e = true
                · left; exact he
                · right
                  have hef : e = false := by
                    cases e
                    · rfl
                    · exact absurd rfl he
                  rw [hef] at hsnd
                  simp only [Bool.not_false, Bool.and_true] at hsnd
                  have hne : aerase ch c ≠ [] := by
                    intro h0
                    rw [h0] at hsnd
                    simp at hsnd
                  rcases List.exists_mem_of_ne_nil _ hne with ⟨p, hmem⟩
                  rw [anyTerm_iff]
                  exact ⟨p, hmem, ((prunedChildren_iff ch).mp hp' p
                    ((aerase_sublist ch c).subset hmem)).1⟩
          | false =>
              simp only [removeHelper, hg, hr, Bool.false_eq_true, if_false]
              have hrec := ih child hchild.2
              rw [hr] at hrec
              constructor
              · simp only [prunedB, prunedChildren_iff]
                intro p hp2
                rcases mem_aset ch c (removeHelper child cs).1 p hp2 with
                  hpe | hpm
                · rw [hpe]
                  exact ⟨hrec.2 rfl hchild.1, hrec.1⟩
                · exact (prunedChildren_iff ch).mp hp' p hpm
              · intro _ _
                simp only [subtreeTerm, Bool.or_eq_true]
                right
                rw [anyTerm_iff]
                exact ⟨(c, (removeHelper child cs).1),
                  aset_mem_self ch c _, hrec.2 rfl hchild.1⟩

/-! ### The effect of `insert` on walks and stored names -/

theorem existsGo_empty (w : List Char) : existsGo TrieNode.empty w = false := by
  cases w with
  | nil => rfl
  | cons c cs => rfl

theorem storedAt_empty (w : List Char) : storedAt TrieNode.empty w = none := by
  cases w with
  | nil => rfl
  | cons c cs => rfl

theorem findNode_cons_none {ch : List (Char × TrieNode)} {e : Bool}
    {nm : Option String} {c : Char} (cs : List Char)
    (hg : aget ch c = none) :
    findNode (.mk ch e nm) (c :: cs) = none := by
  simp [findNode, hg]

theorem findNode_cons_some {ch : List (Char × TrieNode)} {e : Bool}
    {nm : Option String} {c : Char} {child : TrieNode} (cs : List Char)
    (hg : aget ch c = some child) :
    findNode (.mk ch e nm) (c :: cs) = findNode child cs := by
  simp [findNode, hg]

theorem storedAt_cons_none {ch : List (Char × TrieNode)} {e : Bool}
    {nm : Option String} {c : Char} (cs : List Char)
    (hg : aget ch c = none) :
    storedAt (.mk ch e nm) (c :: cs) = none := by
  simp [storedAt, findNode_cons_none cs hg]

theorem storedAt_cons_some {ch : List (Char × TrieNode)} {e : Bool}
    {nm : Option String} {c : Char} {child : TrieNode} (cs : List Char)
    (hg : aget ch c = some child) :
    storedAt (.mk ch e nm) (c :: cs) = storedAt child cs := by
  simp [storedAt, findNode_cons_some cs hg]

theorem existsGo_cons_none {ch : List (Char × TrieNode)} {e : Bool}
    {nm : Option String} {c : Char} (cs : List Char)
    (hg : aget ch c = none) :
    existsGo (.mk ch e nm) (c :: cs) = false := by
  simp [existsGo, hg]

theorem existsGo_cons_some {ch : List (Char × TrieNode)} {e : Bool}
    {nm : Option String} {c : Char} {child : TrieNode} (cs : List Char)
    (hg : aget ch c = some child) :
    existsGo (.mk ch e nm) (c :: cs) = existsGo child cs := by
  simp [existsGo, hg]

theorem existsGo_iff_findNode (w : List Char) : ∀ (n : TrieNode),
    existsGo n w = true ↔
      ∃ m, findNode n w = some m ∧ m.isEndOfWord = true := by
  induction w with
  | nil =>
      rintro ⟨ch, e, nm⟩
      simp [existsGo, findNode, TrieNode.isEndOfWord]
  | cons c cs ih =>
      rintro ⟨ch, e, nm⟩
      cases hg : aget ch c with
      | none => simp [existsGo_cons_none cs hg, findNode_cons_none cs hg]
      | some child =>
          rw [existsGo_cons_some cs hg, findNode_cons_some cs hg, ih child]

theorem existsGo_insertGo (w : List Char) : ∀ (v : List Char) (nm : String)
    (n : TrieNode),
    existsGo (insertGo w nm n) v = (decide (v = w) || existsGo n v) := by
  induction w with
  | nil =>
      rintro v nm ⟨ch, e, n0⟩
      cases v with
      | nil => simp [insertGo, existsGo]
      | cons c cs =>
          simp only [insertGo]
          cases hg : aget ch c with
          | none =>
              rw [existsGo_cons_none cs hg, existsGo_cons_none cs hg]
              simp
          | some child =>
              rw [existsGo_cons_some cs hg, existsGo_cons_some cs hg]
              simp
  | cons a as ih =>
      rintro v nm ⟨ch, e, n0⟩
      cases v with
      | nil => simp [insertGo, existsGo]
      | cons c cs =>
          simp only [insertGo]
          by_cases hca : c = a
          · subst hca
            rw [existsGo_cons_some cs (aget_aset_self ch c _), ih]
            cases hg : aget ch c with
            | none =>
                rw [existsGo_cons_none cs hg]
                simp [hg, existsGo_empty]
            | some child =>
                rw [existsGo_cons_some cs hg]
                simp [hg]
          · have hca' : a ≠ c := fun he => hca he.symm
            have hne : ¬ (c :: cs = a :: as) := by
              intro he
              injection he with h1 h2
              exact hca h1
            cases hg : aget ch c with
            | none =>
                rw [existsGo_cons_none cs
                    (by rw [aget_aset_ne ch a c _ hca']; exact hg),
                  existsGo_cons_none cs hg]
                simp [hne]
            | some child =>
                rw [existsGo_cons_some cs
                    (by rw [aget_aset_ne ch a c _ hca']; exact hg),
                  existsGo_cons_some cs hg]
                simp [hne]

theorem storedAt_insertGo (w : List Char) : ∀ (v : List Char) (nm : String)
    (n : TrieNode),
    storedAt (insertGo w nm n) v =
      if v = w then (if nm = "" then none else some nm) else storedAt n v := by
  induction w with
  | nil =>
      rintro v nm ⟨ch, e, n0⟩
      cases v with
      | nil =>
          by_cases hnm : nm = "" <;>
            simp [insertGo, storedAt, findNode, storedOf, nameList, hnm]
      | cons c cs =>
          simp only [insertGo]
          have hne : ¬ ((c :: cs : List Char) = []) := by simp
          rw [if_neg hne]
          cases hg : aget ch c with
          | none => rw [storedAt_cons_none cs hg, storedAt_cons_none cs hg]
          | some child => rw [storedAt_cons_some cs hg, storedAt_cons_some cs hg]
  | cons a as ih =>
      rintro v nm ⟨ch, e, n0⟩
      cases v with
      | nil =>
          have hne : ¬ (([] : List Char) = a :: as) := by simp
          rw [if_neg hne]
          simp [insertGo, storedAt, findNode, storedOf]
      | cons c cs =>
          simp only [insertGo]
          by_cases hca : c = a
          · subst hca
            rw [storedAt_cons_some cs (aget_aset_self ch c _), ih]
            have hdec : ((c :: cs : List Char) = c :: as) ↔ (cs = as) := by
              simp
            cases hg : aget ch c with
            | none =>
                rw [storedAt_cons_none cs hg]
                by_cases hcs : cs = as <;>
                  simp [hg, hcs, hdec, storedAt_empty]
            | some child =>
                rw [storedAt_cons_some cs hg]
                by_cases hcs : cs = as <;> simp [hg, hcs, hdec]
          · have hca' : a ≠ c := fun he => hca he.symm
            have hne : ¬ ((c :: cs : List Char) = a :: as) := by
              intro he
              injection he with h1 h2
              exact hca h1
            rw [if_neg hne]
            cases hg : aget ch c with
            | none =>
                rw [storedAt_cons_none cs
                    (by rw [aget_aset_ne ch a c _ hca']; exact hg),
                  storedAt_cons_none cs hg]
            | some child =>
                rw [storedAt_cons_some cs
                    (by rw [aget_aset_ne ch a c _ hca']; exact hg),
                  storedAt_cons_some cs hg]

theorem wfNode_insertGo (w : List Char) : ∀ (nm : String) (n : TrieNode),
    wfNode n = true → wfNode (insertGo w nm n) = true := by
  induction w with
  | nil =>
      rintro nm ⟨ch, e, n0⟩ hwf
      simpa [insertGo, wfNode] using hwf
  | cons a as ih =>
      rintro nm ⟨ch, e, n0⟩ hwf
      simp only [wfNode, Bool.and_eq_true] at hwf
      have hch := (wfChildren_iff ch).mp hwf.2
      simp only [insertGo, wfNode, Bool.and_eq_true]
      refine ⟨anodup_aset ch a _ hwf.1, ?_⟩
      rw [wfChildren_iff]
      intro p hp
      rcases mem_aset ch a _ p hp with hpe | hpm
      · rw [hpe]
        apply ih
        cases hg : aget ch a with
        | none => simp [hg, TrieNode.empty, wfNode, wfChildren, anodup]
        | some child =>
            simp only [hg, Option.getD_some]
            exact hch (a, child) (aget_mem ch a child hg)
      · exact hch p hpm

/-! ### Walks and stored names over a built trie -/

theorem buildTrie_append (names : List String) (nm : String) :
    buildTrie (names ++ [nm]) = (buildTrie names).insert nm := by
  simp [buildTrie]

theorem existsGo_buildTrie (names : List String) (v : List Char) :
    existsGo (buildTrie names).root v = true ↔
      ∃ s ∈ names, v = (strLower s).data := by
  induction names using List.reverseRecOn with
  | nil =>
      simp [buildTrie, Trie.empty, existsGo_empty]
  | append_singleton l nm ih =>
      rw [buildTrie_append]
      simp only [Trie.insert, existsGo_insertGo, Bool.or_eq_true,
        decide_eq_true_eq, ih]
      constructor
      · rintro (h | ⟨s, hs, hv⟩)
        · exact ⟨nm, by simp, h⟩
        · exact ⟨s, by simp [hs], hv⟩
      · rintro ⟨s, hs, hv⟩
        rcases List.mem_append.mp hs with hs | hs
        · right; exact ⟨s, hs, hv⟩
        · left
          simp at hs
          rw [hs] at hv
          exact hv

theorem wfNode_buildTrie (names : List String) :
    wfNode (buildTrie names).root = true := by
  induction names using List.reverseRecOn with
  | nil => simp [buildTrie, Trie.empty, TrieNode.empty, wfNode, wfChildren, anodup]
  | append_singleton l nm ih =>
      rw [buildTrie_append]
      exact wfNode_insertGo _ nm _ ih

theorem storedAt_buildTrie (names : List String)
    (hne : ∀ s ∈ names, s ≠ "")
    (hd : names.Pairwise (fun a b => strLower a ≠ strLower b)) :
    ∀ (v : List Char) (s : String),
      storedAt (buildTrie names).root v = some s ↔
        (s ∈ names ∧ v = (strLower s).data) := by
  induction names using List.reverseRecOn with
  | nil =>
      intro v s
      simp [buildTrie, Trie.empty, storedAt_empty]
  | append_singleton l nm ih =>
      intro v s
      rw [buildTrie_append]
      have hne' : ∀ s ∈ l, s ≠ "" := fun s hs => hne s (by simp [hs])
      have hd' : l.Pairwise (fun a b => strLower a ≠ strLower b) :=
        (List.pairwise_append.mp hd).1
      have hsep : ∀ s ∈ l, strLower s ≠ strLower nm := by
        intro s hs
        exact (List.pairwise_append.mp hd).2.2 s hs nm (by simp)
      have hnm : nm ≠ "" := hne nm (by simp)
      simp only [Trie.insert, storedAt_insertGo]
      by_cases hv : v = (strLower nm).data
      · rw [if_pos hv, if_neg hnm]
        constructor
        · intro h
          injection h with h
          rw [← h]
          exact ⟨by simp, hv⟩
        · rintro ⟨hs, hvs⟩
          rcases List.mem_append.mp hs with hs | hs
          · exfalso
            apply hsep s hs
            apply String.ext
            rw [← hv, hvs]
          · simp at hs
            rw [hs]
      · rw [if_neg hv, ih hne' hd' v s]
        constructor
        · rintro ⟨hs, hvs⟩
          exact ⟨by simp [hs], hvs⟩
        · rintro ⟨hs, hvs⟩
          rcases List.mem_append.mp hs with hs | hs
          · exact ⟨hs, hvs⟩
          · exfalso
            simp at hs
            rw [hs] at hvs
            exact hv hvs

/-! ### The contents of `collectNames` -/

theorem mem_collectChildren (ch : List (Char × TrieNode)) (s : String) :
    s ∈ collectChildren ch ↔ ∃ p ∈ ch, s ∈ collectNames p.2 := by
  induction ch with
  | nil => simp [collectChildren]
  | cons p rest ih =>
      simp only [collectChildren, List.mem_append, ih, List.mem_cons]
      constructor
      · rintro (h | ⟨q, hq, hs⟩)
        · exact ⟨p, Or.inl rfl, h⟩
        · exact ⟨q, Or.inr hq, hs⟩
      · rintro ⟨q, (hq | hq), hs⟩
        · left; rw [hq] at hs; exact hs
        · right; exact ⟨q, hq, hs⟩

theorem mem_own_iff_storedAt_nil (ch : List (Char × TrieNode)) (e : Bool)
    (nm : Option String) (s : String) :
    s ∈ (if e then nameList nm else []) ↔
      storedAt (.mk ch e nm) [] = some s := by
  cases e with
  | false => simp [storedAt, findNode, storedOf]
  | true =>
      cases nm with
      | none => simp [storedAt, findNode, storedOf, nameList]
      | some t =>
          by_cases ht : t = "" <;>
            simp [storedAt, findNode, storedOf, nameList, ht, eq_comm]

theorem anodup_forall_ne (l : List (κ × α)) (k : κ)
    (h : ahas l k = false) : ∀ p ∈ l, p.1 ≠ k := by
  intro p hp he
  rw [← he] at h
  rw [ahas_of_mem l p hp] at h
  exact absurd h (by simp)

theorem anodup_pairwise (l : List (κ × α)) (h : anodup l = true) :
    l.Pairwise (fun p q => p.1 ≠ q.1) := by
  induction l with
  | nil => simp
  | cons p rest ih =>
      simp only [anodup, Bool.and_eq_true, Bool.not_eq_true'] at h
      refine List.Pairwise.cons ?_ (ih h.2)
      intro q hq he
      exact anodup_forall_ne rest p.1 h.1 q hq he.symm

theorem mem_collectNames : ∀ (n : TrieNode), wfNode n = true →
    ∀ s, s ∈ collectNames n ↔ ∃ w, storedAt n w = some s := by
  refine TrieNode.recMem ?_
  intro ch e nm IH hwf s
  simp only [wfNode, Bool.and_eq_true] at hwf
  have hwfch := (wfChildren_iff ch).mp hwf.2
  rw [collectNames, List.mem_append]
  constructor
  · rintro (h | h)
    · exact ⟨[], (mem_own_iff_storedAt_nil ch e nm s).mp h⟩
    · rcases (mem_collectChildren ch s).mp h with ⟨p, hp, hs⟩
      rcases (IH p hp (hwfch p hp) s).mp hs with ⟨w, hw⟩
      refine ⟨p.1 :: w, ?_⟩
      rw [storedAt_cons_some w
        (aget_of_mem_anodup ch p.1 p.2 hwf.1 (by simpa using hp))]
      exact hw
  · rintro ⟨w, hw⟩
    cases w with
    | nil => exact Or.inl ((mem_own_iff_storedAt_nil ch e nm s).mpr hw)
    | cons c cs =>
        right
        cases hg : aget ch c with
        | none => rw [storedAt_cons_none cs hg] at hw; exact absurd hw (by simp)
        | some child =>
            rw [storedAt_cons_some cs hg] at hw
            have hmem : (c, child) ∈ ch := aget_mem ch c child hg
            rw [mem_collectChildren]
            exact ⟨(c, child), hmem,
              (IH (c, child) hmem (hwfch (c, child) hmem) s).mpr ⟨cs, hw⟩⟩

theorem pairwise_imp_mem {β : Type} {R S : β → β → Prop} :
    ∀ (l : List β), (∀ a ∈ l, ∀ b ∈ l, R a b → S a b) →
      l.Pairwise R → l.Pairwise S := by
  intro l
  induction l with
  | nil => intro _ _; simp
  | cons a rest ih =>
      intro h hp
      rcases List.pairwise_cons.mp hp with ⟨ha, hrest⟩
      refine List.Pairwise.cons ?_ ?_
      · intro b hb
        exact h a (by simp) b (by simp [hb]) (ha b hb)
      · exact ih (fun x hx y hy => h x (by simp [hx]) y (by simp [hy])) hrest

theorem collectNames_nodup : ∀ (n : TrieNode), ∀ (pfx : List Char),
    wfNode n = true →
    (∀ w s, storedAt n w = some s → (strLower s).data = pfx ++ w) →
    (collectNames n).Nodup := by
  refine TrieNode.recMem ?_
  intro ch e nm IH pfx hwf hinv
  simp only [wfNode, Bool.and_eq_true] at hwf
  have hwfch := (wfChildren_iff ch).mp hwf.2
  have hchild_inv : ∀ p ∈ ch, ∀ w s, storedAt p.2 w = some s →
      (strLower s).data = (pfx ++ [p.1]) ++ w := by
    intro p hp w s hst
    have hg : aget ch p.1 = some p.2 :=
      aget_of_mem_anodup ch p.1 p.2 hwf.1 (by simpa using hp)
    have := hinv (p.1 :: w) s (by rw [storedAt_cons_some w hg]; exact hst)
    simpa using this
  have hchild_mem : ∀ p ∈ ch, ∀ s, s ∈ collectNames p.2 →
      ∃ w, storedAt p.2 w = some s := by
    intro p hp s hs
    exact (mem_collectNames p.2 (hwfch p hp) s).mp hs
  rw [collectNames, List.nodup_append]
  refine ⟨?_, ?_, ?_⟩
  · cases e with
    | false => simp
    | true =>
        cases nm with
        | none => simp [nameList]
        | some t => by_cases ht : t = "" <;> simp [nameList, ht]
  · rw [collectChildren_eq, List.nodup_flatten]
    constructor
    · intro l' hl'
      rcases List.mem_map.mp hl' with ⟨p, hp, hpl⟩
      rw [← hpl]
      exact IH p hp (pfx ++ [p.1]) (hwfch p hp) (hchild_inv p hp)
    · rw [List.pairwise_map]
      have hkeys := anodup_pairwise ch hwf.1
      refine pairwise_imp_mem ch ?_ hkeys
      intro p hp q hq hne s hsp hsq
      rcases hchild_mem p hp s hsp with ⟨w1, hw1⟩
      rcases hchild_mem q hq s hsq with ⟨w2, hw2⟩
      have h1 := hchild_inv p hp w1 s hw1
      have h2 := hchild_inv q hq w2 s hw2
      rw [h1] at h2
      simp only [List.append_assoc, List.singleton_append] at h2
      have h3 := List.append_cancel_left h2
      injection h3 with h3 _
      exact hne h3
  · intro s hso hsch
    have h0 := hinv [] s ((mem_own_iff_storedAt_nil ch e nm s).mp hso)
    rcases (mem_collectChildren ch s).mp hsch with ⟨p, hp, hs⟩
    rcases hchild_mem p hp s hs with ⟨w, hw⟩
    have h1 := hchild_inv p hp w s hw
    rw [h0] at h1
    have hlen := congrArg List.length h1
    simp at hlen

/-! ### Unfolding `recognizeFace` by the scan result -/

theorem recognizeFace_eq_none_of_scan_none (h : FaceHashMap) (q t : _)
    (hs : h.entries.foldl (bestStep q) none = none) :
    recognizeFace h q t = none := by
  simp only [recognizeFace, hs]

theorem recognizeFace_eq_of_scan_some (h : FaceHashMap) (q : List ℝ)
    (t : ℝ) (b : String × ℝ)
    (hs : h.entries.foldl (bestStep q) none = some b) :
    recognizeFace h q t =
      if b.2 < t then some (b.1, max 0 (min 1 (1 - b.2))) else none := by
  simp only [recognizeFace, hs]

/-! ### Claim theorems: the matcher -/

/-- C1: for every registry state, query embedding and threshold, the
linear scan returns no match exactly when every stored embedding is at
Euclidean distance at least the threshold from the query (a normal
no-match result, not an error); and any returned match names a stored
entry of minimum distance, that distance is strictly below the
threshold, and the confidence is `clamp(1 - distance, 0, 1)`. -/
theorem claim_C1_recognizeFace_spec (h : FaceHashMap) (q : List ℝ) (t : ℝ) :
    (recognizeFace h q t = none ↔
      ∀ p ∈ h.entries, t ≤ euclideanDistance q p.2) ∧
    (∀ name c, recognizeFace h q t = some (name, c) →
      ∃ p ∈ h.entries, name = p.1 ∧ euclideanDistance q p.2 < t ∧
        (∀ p' ∈ h.entries,
          euclideanDistance q p.2 ≤ euclideanDistance q p'.2) ∧
        c = max 0 (min 1 (1 - euclideanDistance q p.2))) := by
  cases hs : h.entries.foldl (bestStep q) none with
  | none =>
      have hnil := (foldl_bestStep_none_iff q h.entries).mp hs
      have hre := recognizeFace_eq_none_of_scan_none h q t hs
      constructor
      · simp [hre, hnil]
      · intro name c hm
        rw [hre] at hm
        exact absurd hm (by simp)
  | some b =>
      obtain ⟨l1, p0, l2, hdec, hname, hdist, hlt, hle⟩ :=
        foldl_bestStep_minFirst q h.entries b hs
      have hmem : p0 ∈ h.entries := by rw [hdec]; simp
      have hre := recognizeFace_eq_of_scan_some h q t b hs
      constructor
      · rw [hre]
        by_cases hbt : b.2 < t
        · rw [if_pos hbt]
          constructor
          · intro hx; exact absurd hx (by simp)
          · intro hall
            exfalso
            have := hall p0 hmem
            rw [← hdist] at this
            exact absurd hbt (not_lt.mpr this)
        · rw [if_neg hbt]
          constructor
          · intro _ p' hp'
            exact le_trans (not_lt.mp hbt) (hle p' hp')
          · intro _; rfl
      · intro name c hm
        rw [hre] at hm
        by_cases hbt : b.2 < t
        · rw [if_pos hbt] at hm
          injection hm with hm
          have h1 : b.1 = name := congrArg Prod.fst hm
          have h2 : max 0 (min 1 (1 - b.2)) = c := congrArg Prod.snd hm
          refine ⟨p0, hmem, ?_, ?_, ?_, ?_⟩
          · rw [← h1, hname]
          · rw [← hdist]; exact hbt
          · intro p' hp'
            rw [← hdist]
            exact hle p' hp'
          · rw [← h2, hdist]
        · rw [if_neg hbt] at hm
          exact absurd hm (by simp)

/-- C7: whenever the matcher returns a match, the returned candidate is
the first entry of the registry's `entries()` iteration order attaining
the minimum distance: every strictly earlier entry has strictly larger
distance (the minimum is tracked with `<`, so a later equal-distance
entry never replaces the current best). -/
theorem claim_C7_tie_first_seen (h : FaceHashMap) (q : List ℝ) (t : ℝ)
    (name : String) (c : ℝ)
    (hm : recognizeFace h q t = some (name, c)) :
    ∃ l1 p l2, h.entries = l1 ++ p :: l2 ∧ name = p.1 ∧
      (∀ p' ∈ l1, euclideanDistance q p.2 < euclideanDistance q p'.2) ∧
      (∀ p' ∈ h.entries,
        euclideanDistance q p.2 ≤ euclideanDistance q p'.2) := by
  cases hs : h.entries.foldl (bestStep q) none with
  | none =>
      rw [recognizeFace_eq_none_of_scan_none h q t hs] at hm
      exact absurd hm (by simp)
  | some b =>
      rw [recognizeFace_eq_of_scan_some h q t b hs] at hm
      obtain ⟨l1, p0, l2, hdec, hname, hdist, hlt, hle⟩ :=
        foldl_bestStep_minFirst q h.entries b hs
      by_cases hbt : b.2 < t
      · rw [if_pos hbt] at hm
        injection hm with hm
        have h1 : b.1 = name := congrArg Prod.fst hm
        refine ⟨l1, p0, l2, hdec, by rw [← h1, hname], ?_, ?_⟩
        · intro p' hp'
          rw [← hdist]
          exact hlt p' hp'
        · intro p' hp'
          rw [← hdist]
          exact hle p' hp'
      · rw [if_neg hbt] at hm
        exact absurd hm (by simp)

/-- C10: matching against an empty registry (a cleared one, or a fresh
one) returns the no-match result for every query and threshold, rather
than failing: the scan visits no entry, so no candidate exists. -/
theorem claim_C10_empty_registry (h : FaceHashMap) (q : List ℝ) (t : ℝ) :
    recognizeFace (FaceHashMap.clear h) q t = none ∧
    recognizeFace FaceHashMap.empty q t = none :=
  ⟨rfl, rfl⟩

/-- Witness for C1 at a concrete input: a one-entry registry whose only
embedding is at distance 1 from the query, with threshold 1/2, yields
the no-match result via the claim theorem. -/
theorem claim_C1_witness :
    recognizeFace ⟨[("alice", [0])]⟩ [1] (1 / 2) = none :=
  (claim_C1_recognizeFace_spec ⟨[("alice", [0])]⟩ [1] (1 / 2)).1.mpr (by
    intro p hp
    simp only [FaceHashMap.entries, List.mem_singleton] at hp
    subst hp
    have h1 : sumSqDiff [1] [0] = 1 := by
      norm_num [sumSqDiff]
    rw [euclideanDistance, h1, Real.sqrt_one]
    norm_num)

/-- Witness for C7 at a concrete input: two entries at equal distance 0
from the query; the matcher returns the first ("alice"), and the claim
theorem exhibits it as the first minimum. -/
theorem claim_C7_witness :
    ∃ l1 p l2,
      FaceHashMap.entries ⟨[("alice", ([0] : List ℝ)), ("bob", [0])]⟩ =
          l1 ++ p :: l2 ∧
        "alice" = p.1 ∧
        (∀ p' ∈ l1,
          euclideanDistance [0] p.2 < euclideanDistance [0] p'.2) ∧
        (∀ p' ∈
            FaceHashMap.entries ⟨[("alice", ([0] : List ℝ)), ("bob", [0])]⟩,
          euclideanDistance [0] p.2 ≤ euclideanDistance [0] p'.2) :=
  claim_C7_tie_first_seen ⟨[("alice", [0]), ("bob", [0])]⟩ [0] (1 / 2)
    "alice" 1 (by
      have hd : euclideanDistance [0] [0] = 0 := by
        rw [euclideanDistance, show sumSqDiff [0] [0] = 0 by
          norm_num [sumSqDiff], Real.sqrt_zero]
      have hscan :
          (FaceHashMap.entries
              ⟨[("alice", ([0] : List ℝ)), ("bob", [0])]⟩).foldl
            (bestStep [0]) none = some ("alice", 0) := by
        show (bestStep [0] (bestStep [0] none ("alice", [0])) ("bob", [0]))
          = some ("alice", 0)
        rw [show bestStep [0] none ("alice", [0]) =
          some ("alice", euclideanDistance [0] [0]) from rfl]
        rw [show bestStep [0] (some ("alice", euclideanDistance [0] [0]))
              ("bob", [0]) =
            if euclideanDistance [0] [0] < euclideanDistance [0] [0]
            then some ("bob", euclideanDistance [0] [0])
            else some ("alice", euclideanDistance [0] [0]) from rfl]
        rw [if_neg (lt_irrefl _), hd]
      rw [recognizeFace_eq_of_scan_some _ _ _ _ hscan]
      norm_num)

/-! ### Claim theorems: the trie -/

/-- C2 (amended): `remove(name)` propagates `removeHelper`'s root-level
answer, so it returns `true` exactly when the name was present and
terminal AND the pruning leaves the root with no children and not
terminal (the trie becomes completely empty); a successful removal whose
end node keeps children or whose path is shared returns `false`. -/
theorem claim_C2_remove_ret (t : Trie) (name : String) :
    (t.remove name).2 = true ↔
      (t.existsName name = true ∧
       ((t.remove name).1).root.children = [] ∧
       ((t.remove name).1).root.isEndOfWord = false) := by
  have h := removeHelper_snd_iff (strLower name).data t.root
  simpa [Trie.remove, Trie.existsName] using h

/-- Counterexample to C2 as stated: in the trie {"a", "ab"} the name
"a" is present and terminal, and `remove("a")` does delete it (it is no
longer found afterwards), yet the call returns `false`, because the end
node still has the child for "ab". -/
theorem claim_C2_counterexample :
    Trie.existsName ((Trie.empty.insert "a").insert "ab") "a" = true ∧
    (((Trie.empty.insert "a").insert "ab").remove "a").2 = false ∧
    Trie.existsName ((((Trie.empty.insert "a").insert "ab").remove "a").1)
      "a" = false := by
  exact ⟨rfl, rfl, rfl⟩

/-- Witness for C2 (amended) at a concrete input: removing the only name
of a single-name trie empties it entirely, and the call returns `true`. -/
theorem claim_C2_witness :
    ((Trie.empty.insert "ab").remove "ab").2 = true :=
  (claim_C2_remove_ret (Trie.empty.insert "ab") "ab").mpr ⟨rfl, rfl, rfl⟩

/-- C3: removal preserves compaction: if every reachable non-root node
has a terminal node in its subtree (no dangling non-terminal leaves),
the same holds after `remove(name)` — the helper prunes each newly
useless node and stops at the first ancestor that is terminal or still
has children. -/
theorem claim_C3_remove_compaction (t : Trie) (name : String)
    (hp : prunedB t.root = true) :
    prunedB ((t.remove name).1).root = true := by
  have h := (removeHelper_preserves_pruned (strLower name).data t.root hp).1
  simpa [Trie.remove] using h

/-- Witness for C3 at a concrete input: removing "ab" from the compacted
trie {"a", "ab"} leaves a compacted trie. -/
theorem claim_C3_witness :
    prunedB ((((Trie.empty.insert "a").insert "ab").remove "ab").1).root
      = true :=
  claim_C3_remove_compaction ((Trie.empty.insert "a").insert "ab") "ab"
    (by decide)

/-- C4: `exists(name)` is true exactly when the full normalized
character path exists from the root and its final node is marked
terminal; consequently over any built trie it reports exactly the
case-folded inserted names, so a strict prefix never inserted reports
false. -/
theorem claim_C4_exists_terminal :
    (∀ (n : TrieNode) (w : List Char),
      existsGo n w = true ↔
        ∃ m, findNode n w = some m ∧ m.isEndOfWord = true) ∧
    (∀ (names : List String) (q : String),
      Trie.existsName (buildTrie names) q = true ↔
        strLower q ∈ names.map strLower) := by
  constructor
  · exact fun n w => existsGo_iff_findNode w n
  · intro names q
    rw [Trie.existsName, existsGo_buildTrie]
    constructor
    · rintro ⟨s, hs, hq⟩
      rw [List.mem_map]
      exact ⟨s, hs, (String.ext hq).symm⟩
    · intro hq
      rcases List.mem_map.mp hq with ⟨s, hs, hsl⟩
      exact ⟨s, hs, congrArg String.data hsl.symm⟩

/-- Witness for C4 at the spec's example: with only "John" inserted,
`exists("Jo")` is false (prefix-but-not-terminal). -/
theorem claim_C4_witness :
    Trie.existsName (buildTrie ["John"]) "Jo" = false := by
  cases he : Trie.existsName (buildTrie ["John"]) "Jo" with
  | false => rfl
  | true =>
      exact absurd ((claim_C4_exists_terminal.2 ["John"] "Jo").mp he)
        (by decide)

/-- Counterexample to C5 as stated: the names "", "a" and "A" are
pairwise distinct display-cased strings, yet after inserting all three
`searchWithPrefix("")` misses both "" (the truthiness test skips the
empty string) and "a" (case-folded collision: "A" overwrote it). -/
theorem claim_C5_counterexample :
    "a" ∈ (["", "a", "A"] : List String) ∧
    "a" ∉ (buildTrie ["", "a", "A"]).searchWithPrefix "" ∧
    "" ∉ (buildTrie ["", "a", "A"]).searchWithPrefix "" := by
  exact ⟨by decide, by decide, by decide⟩

/-- C5 (amended): for nonempty names that are pairwise distinct after
case folding, inserting all of them into an empty trie and calling
`searchWithPrefix("")` returns exactly that set of names — a permutation
of the inserted list, original casing preserved — regardless of
insertion order (the hypothesis constrains no order), and the empty
string prefix is handled without error. -/
theorem claim_C5_roundtrip (names : List String)
    (hne : ∀ s ∈ names, s ≠ "")
    (hd : names.Pairwise (fun a b => strLower a ≠ strLower b)) :
    List.Perm ((buildTrie names).searchWithPrefix "") names := by
  have hwf := wfNode_buildTrie names
  have hst := storedAt_buildTrie names hne hd
  have hdata : (strLower "").data = ([] : List Char) := by decide
  have hshow : (buildTrie names).searchWithPrefix "" =
      collectNames (buildTrie names).root := by
    simp only [Trie.searchWithPrefix, hdata, findNode]
  rw [hshow]
  have hnodupL : (collectNames (buildTrie names).root).Nodup := by
    refine collectNames_nodup _ [] hwf ?_
    intro w s hsw
    rcases (hst w s).mp hsw with ⟨hsn, hwv⟩
    rw [hwv]
    simp
  have hnodupR : names.Nodup := by
    refine hd.imp ?_
    intro a b hab he
    exact hab (he ▸ rfl)
  rw [List.perm_ext_iff_of_nodup hnodupL hnodupR]
  intro s
  rw [mem_collectNames _ hwf s]
  constructor
  · rintro ⟨w, hw⟩
    exact ((hst w s).mp hw).1
  · intro hs
    exact ⟨(strLower s).data, (hst _ s).mpr ⟨hs, rfl⟩⟩

/-- Witness for C5 (amended) at a concrete input. -/
theorem claim_C5_witness :
    List.Perm ((buildTrie ["Alice", "Bob"]).searchWithPrefix "")
      ["Alice", "Bob"] :=
  claim_C5_roundtrip ["Alice", "Bob"] (by decide) (by decide)

/-! ### Claim theorems: registry operations, quality gate, result window -/

/-- C6: on every registry state with the `Map` key-uniqueness invariant,
`set(name, v)` makes `get` return `v` and `has` return true; `delete`
makes `get` miss and `has` false; `has` mirrors `get`'s presence; and
because all four operations case-fold the name, they agree across
casings of the same name. -/
theorem claim_C6_registry_ops (h : FaceHashMap) (name name' : String)
    (v : List ℝ) (hn : anodup h.map = true)
    (hc : strLower name = strLower name') :
    (h.set name v).get name' = some v ∧
    (h.set name v).has name' = true ∧
    ((h.delete name).2).get name' = none ∧
    ((h.delete name).2).has name' = false ∧
    h.has name' = (h.get name').isSome := by
  refine ⟨?_, ?_, ?_, ?_, ?_⟩
  · rw [FaceHashMap.get, FaceHashMap.set, ← hc]
    exact aget_aset_self h.map (strLower name) v
  · rw [FaceHashMap.has, FaceHashMap.set, ← hc, ahas_aset]
    simp
  · rw [FaceHashMap.get, FaceHashMap.delete, ← hc]
    exact aget_eq_none_of_not_has _ _
      (ahas_aerase_of_anodup h.map (strLower name) hn)
  · rw [FaceHashMap.has, FaceHashMap.delete, ← hc]
    exact ahas_aerase_of_anodup h.map (strLower name) hn
  · rw [FaceHashMap.has, FaceHashMap.get]
    exact ahas_eq_isSome_aget h.map (strLower name')

/-- Witness for C6 at a concrete input: the operations agree across the
casings "Alice" and "ALICE" on a one-entry registry. -/
theorem claim_C6_witness :
    ((⟨[("bob", [2])]⟩ : FaceHashMap).set "Alice" [1]).get "ALICE"
        = some [1] ∧
    ((⟨[("bob", [2])]⟩ : FaceHashMap).set "Alice" [1]).has "ALICE" = true ∧
    (((⟨[("bob", [2])]⟩ : FaceHashMap).delete "Alice").2).get "ALICE"
        = none ∧
    (((⟨[("bob", [2])]⟩ : FaceHashMap).delete "Alice").2).has "ALICE"
        = false ∧
    (⟨[("bob", [2])]⟩ : FaceHashMap).has "ALICE" =
      ((⟨[("bob", [2])]⟩ : FaceHashMap).get "ALICE").isSome :=
  claim_C6_registry_ops ⟨[("bob", [2])]⟩ "Alice" "ALICE" [1]
    (by decide) (by decide)

/-- C8: in the registration flow, sample capture (and hence persistence
of a face) proceeds only when a quality assessment is present and its
overall score is at least 60; a detection scoring below 60 is rejected
before any sample is captured. -/
theorem claim_C8_quality_gate (name : String)
    (qm : Option FaceQualityMetrics) :
    captureProceeds name qm = true ↔
      (strTrim name ≠ "" ∧ ∃ m, qm = some m ∧ 60 ≤ m.overallScore) := by
  rw [captureProceeds.eq_def]
  by_cases ht : strTrim name = ""
  · simp [ht]
  · cases qm with
    | none => simp [ht]
    | some m => simp [ht]

/-- Witness for C8 at a concrete input: a named user with an 80-score
assessment passes the gate. -/
theorem claim_C8_witness :
    captureProceeds "Bob"
      (some ⟨DistanceLabel.optimal, LightingLabel.optimal,
        AngleLabel.good, 80⟩) = true :=
  (claim_C8_quality_gate "Bob"
      (some ⟨DistanceLabel.optimal, LightingLabel.optimal,
        AngleLabel.good, 80⟩)).mpr
    ⟨by decide, ⟨_, rfl, by decide⟩⟩

/-- C9: the recognition-result list is a bounded rolling window: starting
from the empty list, after any sequence of frame-processing steps it has
at most 10 entries; and a step with new results prepends them (newest
first) and truncates to the first 10, discarding older entries. -/
theorem claim_C9_rolling_window :
    (∀ steps : List (List RecognitionResult),
      (steps.foldl (fun acc nw => updateResults nw acc) []).length ≤ 10) ∧
    (∀ (nw prev : List RecognitionResult), nw ≠ [] →
      updateResults nw prev = (nw ++ prev).take 10) := by
  constructor
  · intro steps
    have key : ∀ (acc : List RecognitionResult), acc.length ≤ 10 →
        (steps.foldl (fun acc nw => updateResults nw acc) acc).length
          ≤ 10 := by
      induction steps with
      | nil => intro acc h; simpa using h
      | cons nw rest ih =>
          intro acc h
          rw [List.foldl_cons]
          apply ih
          rw [updateResults]
          split
          · exact h
          · simp [List.length_take]
    exact key [] (by simp)
  · intro nw prev hnw
    rw [updateResults, if_neg]
    intro he
    rw [list_isEmpty_iff] at he
    exact hnw he

/-- Witness for C9 at a concrete input: one step with one new result. -/
theorem claim_C9_witness :
    (([[(⟨"a", 1, 0⟩ : RecognitionResult)]] :
        List (List RecognitionResult)).foldl
      (fun acc nw => updateResults nw acc) []).length ≤ 10 ∧
    updateResults [(⟨"a", 1, 0⟩ : RecognitionResult)] [] =
      ([(⟨"a", 1, 0⟩ : RecognitionResult)] ++ []).take 10 :=
  ⟨claim_C9_rolling_window.1 _,
   claim_C9_rolling_window.2 _ _ (by simp)⟩

end FaceSnap
